import Mathlib

/-
Verification of the event-based-model (EBM) pipeline exercised by the
walkthrough notebook `src/3_UsingTheEventBasedModel/kde_ebm_walkthrough.ipynb`.
The notebook itself is glue code calling the algorithmic core
(`fit_all_kde_models`, `mcmc`, `extract_pvd`, `ebm_staging`,
`ebm_2_repeatedcv`), whose sources are not part of this repository's tree,
so those operations are modelled here from the specification's description
of each component.  All probability arithmetic is carried out exactly over ℚ
(the implementation's floating-point likelihoods correspond to rationals;
log-space computation is reflected by working with likelihoods directly,
since `Real.log` is strictly monotone, and the log-space statements are
proved about `Real.log` of the rational likelihoods).
-/

namespace EBM

/-! ## Likelihood kernel (SequenceSampler / StagingEngine, spec §4.3, §4.5) -/

/-- Modelled from the spec: event probabilities of one subject, re-indexed in
the order given by a candidate Ordering (`event indices k are taken in the
order specified by the candidate Ordering`).  `ord` is a permutation of
biomarker indices, `row` a subject's event-probability row. -/
def reorder (ord : List ℕ) (row : List ℚ) : List ℚ :=
  ord.map (fun k => row.getD k 0)

/-- Modelled from the spec: the vector of per-stage likelihood contributions
`Π_{k≤z} p(event_k) · Π_{k>z} (1 − p(event_k))` for stages `z = 0 .. N`,
computed (as an implementation would) by one recursive pass over the
reordered probability row. -/
def stage_products : List ℚ → List ℚ
  | [] => [1]
  | p :: ps =>
      ((p :: ps).map (fun q => 1 - q)).prod :: (stage_products ps).map (fun t => p * t)

/-- Modelled from the spec: the likelihood of one subject's probability row
under a candidate Ordering, marginalised over all stages under a uniform
stage prior: `(1/(N+1)) · Σ_z Π_{k≤z} p(event_k) · Π_{k>z} (1 − p(event_k))`.
The argument is the already-reordered row. -/
def subject_likelihood (ps : List ℚ) : ℚ :=
  (stage_products ps).sum / (ps.length + 1)

/-- Modelled from the spec: the data likelihood of a candidate Ordering,
the product over subjects of the subject likelihoods (the implementation
sums the subject log-likelihoods; `Real.log` of this product is proved to
equal that sum). -/
def ordering_likelihood (mat : List (List ℚ)) (ord : List ℕ) : ℚ :=
  (mat.map (fun row => subject_likelihood (reorder ord row))).prod

/-! ## StagingEngine (`ebm_staging`, spec §4.5) -/

/-- Modelled from the spec: stage posterior of one subject for a fixed
Ordering — the per-stage likelihood contributions normalised to sum to 1.
The argument is the already-reordered probability row. -/
def stage_posterior (ps : List ℚ) : List ℚ :=
  (stage_products ps).map (fun t => t / (stage_products ps).sum)

/-- Index of the first maximum of a list (ties broken by the lowest index). -/
def first_argmax : List ℚ → ℕ
  | [] => 0
  | [_] => 0
  | p :: q :: rest =>
      if p < (q :: rest).getD (first_argmax (q :: rest)) 0
      then first_argmax (q :: rest) + 1 else 0

/-- Modelled from the spec: `ml_stage = arg max over stage_posterior (ties
broken by lowest stage index)`. -/
def ml_stage (ps : List ℚ) : ℕ :=
  first_argmax (stage_posterior ps)

/-- Modelled from the spec: `expected_stage = Σ_z z · stage_posterior[z]`. -/
def expected_stage (ps : List ℚ) : ℚ :=
  ∑ z ∈ Finset.range (stage_posterior ps).length, (z : ℚ) * (stage_posterior ps).getD z 0

/-! ## PositionalVarianceAggregator (`extract_pvd`, spec §4.4) -/

/-- Modelled from the spec: events×positions matrix where cell (e,p) is the
empirical frequency with which event e appeared at position p across the
collection of sampled Orderings, normalised per row.  Out-of-range positions
read the sentinel `n`, which matches no event index below `n`. -/
def extract_pvd (n : ℕ) (samples : List (List ℕ)) : List (List ℚ) :=
  (List.range n).map (fun e =>
    (List.range n).map (fun p =>
      ((samples.countP (fun s => s.getD p n = e)) : ℚ) / samples.length))

/-! ## MixtureModelFitter and EventProbabilityEngine (spec §4.1, §4.2) -/

/-- Modelled from the spec: a fitted per-biomarker mixture model — a
non-event (control) component and an event (patient) component, each a
kernel-density estimate over the stored sample values (after orientation by
the declared abnormality direction), a bandwidth selected from the data
scale, a mixing weight, and the declared direction. -/
structure MixtureModel where
  controls : List ℚ
  patients : List ℚ
  bandwidth : ℚ
  weight : ℚ
  direction : ℤ
deriving DecidableEq

/-- Errors of the fitting stage (spec §7). -/
inductive FitError where
  | insufficientData
  | degenerateDistribution
deriving DecidableEq

/-- Modelled from the spec: the minimum number of labelled-0 and labelled-1
observations required to fit a biomarker (the spec fixes only that such a
minimum exists). -/
def min_labelled : ℕ := 2

/-- Values of the subjects carrying label `c` (pairing labels with values). -/
def select (labels : List ℕ) (values : List ℚ) (c : ℕ) : List ℚ :=
  ((labels.zip values).filter (fun lv => lv.1 == c)).map (fun lv => lv.2)

/-- Mean of a list of rationals (0 for the empty list). -/
def list_mean (xs : List ℚ) : ℚ := xs.sum / xs.length

/-- Population variance of a list of rationals (0 for the empty list). -/
def variance (xs : List ℚ) : ℚ :=
  ((xs.map (fun x => (x - list_mean xs) ^ 2)).sum) / xs.length

/-- A symmetric non-negative smoothing kernel (triangular). -/
def triangle_kernel (u : ℚ) : ℚ := max 0 (1 - |u|)

/-- Modelled from the spec: non-parametric kernel-density estimate over the
sample values `xs` with bandwidth `h`. -/
def kde_density (xs : List ℚ) (h : ℚ) (x : ℚ) : ℚ :=
  (xs.map (fun xi => triangle_kernel ((x - xi) / h))).sum / (xs.length * h)

/-- Modelled from the spec (§4.1): fit one biomarker.  The direction sign
orients the values so that abnormal is larger; too few labelled observations
fail with `insufficientData`; a zero-variance column, or a direction
inconsistent with the observed patient/control separation, fails with
`degenerateDistribution`; otherwise the control and patient kernel-density
components are returned with a data-scale bandwidth and a mixing weight. -/
def fit_mixture (values : List ℚ) (labels : List ℕ) (direction : ℤ) :
    Except FitError MixtureModel :=
  let oriented := values.map (fun v => (direction : ℚ) * v)
  let co := select labels oriented 0
  let pa := select labels oriented 1
  if co.length < min_labelled ∨ pa.length < min_labelled then
    Except.error FitError.insufficientData
  else if variance oriented = 0 then
    Except.error FitError.degenerateDistribution
  else if list_mean pa ≤ list_mean co then
    Except.error FitError.degenerateDistribution
  else
    Except.ok ⟨co, pa, variance oriented,
      (pa.length : ℚ) / ((pa.length : ℚ) + (co.length : ℚ)), direction⟩

/-- Modelled from the spec (§4.2): total mixture density at an (oriented)
point — event component times the mixing weight plus non-event component
times its complement. -/
def mixture_total_density (m : MixtureModel) (x : ℚ) : ℚ :=
  m.weight * kde_density m.patients m.bandwidth x
    + (1 - m.weight) * kde_density m.controls m.bandwidth x

/-- Modelled from the spec (§4.2): posterior probability that the event has
occurred, `weight · f_event(x) / total(x)`, with the defined limiting value
1/2 when the total mixture density vanishes.  `x` is already oriented. -/
def event_probability (m : MixtureModel) (x : ℚ) : ℚ :=
  if mixture_total_density m x = 0 then 1 / 2
  else m.weight * kde_density m.patients m.bandwidth x / mixture_total_density m x

/-- Event probability of a raw (unoriented) measurement under a fitted
mixture: the stored direction orients the measurement first. -/
def mixture_event_probability (m : MixtureModel) (x : ℚ) : ℚ :=
  event_probability m ((m.direction : ℚ) * x)

/-- Column `j` of a subjects×biomarkers measurement matrix. -/
def column (X : List (List ℚ)) (j : ℕ) : List ℚ :=
  X.map (fun row => row.getD j 0)

/-- Modelled from the spec: fit every biomarker independently; a failure for
one biomarker is local to its entry in the returned list. -/
def fit_all_kde_models (X : List (List ℚ)) (y : List ℕ) (dirs : List ℤ) :
    List (Except FitError MixtureModel) :=
  (List.range dirs.length).map (fun j => fit_mixture (column X j) y (dirs.getD j 1))

/-- Modelled from the spec: the EventProbabilityMatrix, derived entrywise
from the measurement matrix, the fitted mixtures and the direction vector
(entries of biomarkers whose fit failed carry the fit error). -/
def event_probability_matrix (X : List (List ℚ)) (y : List ℕ) (dirs : List ℤ) :
    List (List (Except FitError ℚ)) :=
  X.map (fun row =>
    (List.range dirs.length).map (fun j =>
      (fit_mixture (column X j) y (dirs.getD j 1)).map
        (fun m => mixture_event_probability m (row.getD j 0))))

/-- Negate every subject's measurement of biomarker `j`. -/
def negate_column (X : List (List ℚ)) (j : ℕ) : List (List ℚ) :=
  X.map (fun row => row.set j (-(row.getD j 0)))

/-- Negate biomarker `j`'s entry of the direction vector. -/
def flip_direction (dirs : List ℤ) (j : ℕ) : List ℤ :=
  dirs.set j (-(dirs.getD j 1))

/-! ## SequenceSampler (`mcmc`, spec §4.3) -/

/-- Modelled from the spec: the sampler owns its own seeded random-number
generator state; a standard linear-congruential step. -/
def lcg (s : ℕ) : ℕ := (1103515245 * s + 12345) % 2 ^ 31

/-- State of one MCMC chain: RNG state, current Ordering, its likelihood. -/
structure MCState where
  rng : ℕ
  cur : List ℕ
  curLik : ℚ
deriving DecidableEq

/-- Swap the entries at positions `i` and `j`. -/
def swap_positions (l : List ℕ) (i j : ℕ) : List ℕ :=
  (l.set i (l.getD j 0)).set j (l.getD i 0)

/-- Modelled from the spec: a proposal samples two positions uniformly and
swaps the events occupying them. -/
def mc_proposal (st : MCState) : List ℕ :=
  let n := st.cur.length
  let r1 := lcg st.rng
  let r2 := lcg r1
  swap_positions st.cur (r1 % n) (r2 % n)

/-- The uniform draw of one MCMC step, a rational in `[0,1)`. -/
def mc_unif (st : MCState) : ℚ :=
  ((lcg (lcg (lcg st.rng))) : ℚ) / 2 ^ 31

/-- Modelled from the spec (§4.3 and the tie policy of §9): one Metropolis
step.  A strictly better proposal is accepted; an exact likelihood tie
retains the currently-held Ordering; a worse proposal is accepted with
probability `exp(Δ log-likelihood) = L'/L`, i.e. when the uniform draw `u`
satisfies `u·L < L'`; rejection retains the current Ordering as the next
sample. -/
def mcmcStep (mat : List (List ℚ)) (st : MCState) : MCState × (List ℕ × ℚ) :=
  let prop := mc_proposal st
  let pLik := ordering_likelihood mat prop
  let rng3 := lcg (lcg (lcg st.rng))
  let next : MCState :=
    if st.curLik < pLik then ⟨rng3, prop, pLik⟩
    else if pLik = st.curLik then ⟨rng3, st.cur, st.curLik⟩
    else if mc_unif st * st.curLik < pLik then ⟨rng3, prop, pLik⟩
    else ⟨rng3, st.cur, st.curLik⟩
  (next, (next.cur, next.curLik))

/-- The chain of retained per-step samples, most recent steps last. -/
def mcmc_chain (mat : List (List ℚ)) : ℕ → MCState → List (List ℕ × ℚ)
  | 0, _ => []
  | k + 1, st =>
      let out := mcmcStep mat st
      out.2 :: mcmc_chain mat k out.1

/-- Among `cands`, the candidate whose appending to `placed` yields the
largest data likelihood (first such candidate on ties). -/
def best_candidate (mat : List (List ℚ)) (placed : List ℕ) : List ℕ → ℕ
  | [] => 0
  | c :: cs =>
      cs.foldl
        (fun b c2 =>
          if ordering_likelihood mat (placed ++ [b]) <
              ordering_likelihood mat (placed ++ [c2]) then c2 else b) c

/-- Modelled from the spec: greedy construction of a starting Ordering by
repeatedly appending the unplaced event that most increases the total
likelihood. -/
def greedy_build (mat : List (List ℚ)) : ℕ → List ℕ → List ℕ → List ℕ
  | 0, placed, _ => placed
  | _ + 1, placed, [] => placed
  | fuel + 1, placed, c :: cs =>
      let b := best_candidate mat placed (c :: cs)
      greedy_build mat fuel (placed ++ [b]) ((c :: cs).erase b)

/-- Greedy starting Ordering over `n` events. -/
def greedy_init (mat : List (List ℚ)) (n : ℕ) : List ℕ :=
  greedy_build mat n [] (List.range n)

/-- The event-probability matrix handed to the sampler, built from the raw
measurements and the fitted mixtures (as in the notebook's
`mcmc(X_combined, kde_mixtures)`). -/
def mcmc_matrix (X : List (List ℚ)) (mixtures : List MixtureModel) : List (List ℚ) :=
  X.map (fun row => List.zipWith mixture_event_probability mixtures row)

/-- The samples retained by one sampling run: the per-step chain after the
initial burn-in is discarded. -/
def mcmc_retained (X : List (List ℚ)) (mixtures : List MixtureModel)
    (seed iters burn : ℕ) : List (List ℕ × ℚ) :=
  let mat := mcmc_matrix X mixtures
  let init := greedy_init mat mixtures.length
  (mcmc_chain mat iters ⟨seed, init, ordering_likelihood mat init⟩).drop burn

/-- Modelled from the spec and the notebook's usage contract
(`seq_ml = mcmc_samples[0].ordering` is "the maximum Likelihood sequence
over all samples"): the sampling run returns the retained samples sorted by
descending likelihood, so the head is the maximum-likelihood Ordering. -/
def mcmc (X : List (List ℚ)) (mixtures : List MixtureModel)
    (seed iters burn : ℕ) : List (List ℕ × ℚ) :=
  List.insertionSort (fun a b => b.2 ≤ a.2) (mcmc_retained X mixtures seed iters burn)

/-- A concrete one-subject event-probability matrix under which every
Ordering of the two events has the same likelihood (used to exhibit the
Metropolis tie behaviour). -/
def tie_mat : List (List ℚ) := [[1/2, 1/2]]

/-- A concrete sampler state holding the Ordering `[0,1]` together with its
likelihood under `tie_mat`. -/
def tie_state : MCState := ⟨0, [0, 1], 1/4⟩

/-! ## Cross-validation caching cell (notebook cell calling `ebm_2_repeatedcv`) -/

/-- The result dictionary `ebm_results` of the notebook, restricted to the
four cross-validation keys the caching cell probes and stores
(`mixtures_rcv`, `mcmc_samples_rcv`, `sequences_rcv`, `staging_errors_rcv`);
`none` models an absent key. -/
structure EBMResults (μ σ ρ ε : Type) where
  mixtures_rcv : Option μ
  mcmc_samples_rcv : Option σ
  sequences_rcv : Option ρ
  staging_errors_rcv : Option ε
deriving DecidableEq

/-- The notebook's cross-validation cell: if the key `mixtures_rcv` is
already present the stored artifacts are reused and `ebm_2_repeatedcv`
(here the argument `run`) is not invoked; otherwise the cross-validation is
run and its four outputs are stored. -/
def cv_cell {μ σ ρ ε : Type} (run : Unit → μ × σ × ρ × ε)
    (r : EBMResults μ σ ρ ε) : EBMResults μ σ ρ ε :=
  match r.mixtures_rcv with
  | some _ => r
  | none =>
      let out := run ()
      ⟨some out.1, some out.2.1, some out.2.2.1, some out.2.2.2⟩

/-! ## Supporting lemmas -/

lemma length_stage_products (ps : List ℚ) :
    (stage_products ps).length = ps.length + 1 := by
  induction ps with
  | nil => simp [stage_products]
  | cons p ps ih => simp [stage_products, ih]

lemma getD_map_mul (c : ℚ) (l : List ℚ) (z : ℕ) :
    (l.map (fun t => c * t)).getD z 0 = c * l.getD z 0 := by
  induction l generalizing z with
  | nil => simp
  | cons a t ih =>
      cases z with
      | zero => simp
      | succ z => simpa using ih z

lemma stage_products_getD (ps : List ℚ) (z : ℕ) (hz : z ≤ ps.length) :
    (stage_products ps).getD z 0 =
      (ps.take z).prod * ((ps.drop z).map (fun q => 1 - q)).prod := by
  induction ps generalizing z with
  | nil =>
      have hz0 : z = 0 := Nat.le_zero.mp hz
      subst hz0
      simp [stage_products]
  | cons p t ih =>
      cases z with
      | zero => simp [stage_products]
      | succ z =>
          have hz' : z ≤ t.length := by simpa using hz
          simp only [stage_products, List.getD_cons_succ, getD_map_mul, ih z hz',
            List.take_succ_cons, List.drop_succ_cons, List.prod_cons]
          ring

lemma sum_getD (l : List ℚ) :
    ∑ i ∈ Finset.range l.length, l.getD i 0 = l.sum := by
  induction l with
  | nil => simp
  | cons a t ih =>
      have h1 : ∀ i, (a :: t).getD (i + 1) 0 = t.getD i 0 := fun i => rfl
      have h0 : (a :: t).getD 0 0 = a := rfl
      rw [List.length_cons, Finset.sum_range_succ']
      simp only [h1, h0]
      rw [ih, List.sum_cons, add_comm]

lemma stage_products_sum (ps : List ℚ) :
    (stage_products ps).sum =
      ∑ z ∈ Finset.range (ps.length + 1),
        (ps.take z).prod * ((ps.drop z).map (fun q => 1 - q)).prod := by
  rw [← sum_getD (stage_products ps), length_stage_products]
  refine Finset.sum_congr rfl fun z hz => ?_
  exact stage_products_getD ps z (Nat.lt_succ_iff.mp (Finset.mem_range.mp hz))

lemma list_prod_nonneg {l : List ℚ} (h : ∀ q ∈ l, 0 ≤ q) : 0 ≤ l.prod := by
  induction l with
  | nil => simp
  | cons a t ih =>
      rw [List.prod_cons]
      exact mul_nonneg (h a (by simp)) (ih fun q hq => h q (by simp [hq]))

lemma list_prod_pos {l : List ℚ} (h : ∀ q ∈ l, 0 < q) : 0 < l.prod := by
  induction l with
  | nil => simp
  | cons a t ih =>
      rw [List.prod_cons]
      exact mul_pos (h a (by simp)) (ih fun q hq => h q (by simp [hq]))

lemma stage_products_nonneg {ps : List ℚ} (h : ∀ p ∈ ps, 0 ≤ p ∧ p ≤ 1) :
    ∀ t ∈ stage_products ps, 0 ≤ t := by
  induction ps with
  | nil => intro t ht; simp [stage_products] at ht; simp [ht]
  | cons p ps ih =>
      intro t ht
      rw [stage_products, List.mem_cons] at ht
      rcases ht with h1 | h2
      · subst h1
        refine list_prod_nonneg fun q hq => ?_
        rcases List.mem_map.mp hq with ⟨x, hx, rfl⟩
        have := (h x (by simp [hx])).2
        linarith
      · rcases List.mem_map.mp h2 with ⟨t', ht', rfl⟩
        have hp := (h p (by simp)).1
        have ht'0 := ih (fun q hq => h q (by simp [hq])) t' ht'
        positivity

lemma sum_map_mul (c : ℚ) (l : List ℚ) :
    (l.map (fun t => c * t)).sum = c * l.sum := by
  induction l with
  | nil => simp
  | cons a t ih => simp [ih, mul_add]

lemma sum_map_div (c : ℚ) (l : List ℚ) :
    (l.map (fun t => t / c)).sum = l.sum / c := by
  induction l with
  | nil => simp
  | cons a t ih => simp [ih, add_div]

lemma stage_products_sum_pos {ps : List ℚ} (h : ∀ p ∈ ps, 0 < p ∧ p < 1) :
    0 < (stage_products ps).sum := by
  induction ps with
  | nil => simp [stage_products]
  | cons p ps ih =>
      rw [stage_products, List.sum_cons, sum_map_mul]
      have h0 : (0 : ℚ) ≤ ((p :: ps).map (fun q => 1 - q)).prod := by
        refine list_prod_nonneg fun q hq => ?_
        rcases List.mem_map.mp hq with ⟨x, hx, rfl⟩
        have := (h x hx).2
        linarith
      have hp := (h p (by simp)).1
      have hs := ih fun q hq => h q (by simp [hq])
      have : 0 < p * (stage_products ps).sum := mul_pos hp hs
      linarith

lemma subject_likelihood_pos {ps : List ℚ} (h : ∀ p ∈ ps, 0 < p ∧ p < 1) :
    0 < subject_likelihood ps := by
  unfold subject_likelihood
  refine div_pos (stage_products_sum_pos h) ?_
  positivity

lemma mem_reorder {n : ℕ} {ord : List ℕ} {row : List ℚ}
    (hord : ord.Perm (List.range n)) (hrow : row.length = n) :
    ∀ q ∈ reorder ord row, q ∈ row := by
  intro q hq
  rcases List.mem_map.mp hq with ⟨k, hk, rfl⟩
  have hkn : k < n := List.mem_range.mp (hord.mem_iff.mp hk)
  have hkl : k < row.length := by rw [hrow]; exact hkn
  rw [List.getD_eq_getElem row 0 hkl]
  exact List.getElem_mem hkl

lemma length_reorder {n : ℕ} {ord : List ℕ} (row : List ℚ)
    (hord : ord.Perm (List.range n)) : (reorder ord row).length = n := by
  rw [reorder, List.length_map, hord.length_eq, List.length_range]

lemma log_list_prod (l : List ℚ) (h : ∀ q ∈ l, 0 < q) :
    Real.log ((l.prod : ℚ) : ℝ) = (l.map (fun q => Real.log ((q : ℚ) : ℝ))).sum := by
  induction l with
  | nil => simp
  | cons a t ih =>
      have ha : ((a : ℚ) : ℝ) ≠ 0 := by
        exact_mod_cast ne_of_gt (h a (by simp))
      have ht : ((t.prod : ℚ) : ℝ) ≠ 0 := by
        exact_mod_cast ne_of_gt (list_prod_pos fun q hq => h q (by simp [hq]))
      rw [List.prod_cons, List.map_cons, List.sum_cons, Rat.cast_mul,
        Real.log_mul ha ht, ← ih fun q hq => h q (by simp [hq])]

lemma getD_map_div (c : ℚ) (l : List ℚ) (z : ℕ) :
    (l.map (fun t => t / c)).getD z 0 = l.getD z 0 / c := by
  induction l generalizing z with
  | nil => simp
  | cons a t ih =>
      cases z with
      | zero => simp
      | succ z => simpa using ih z

lemma getD_nonneg {l : List ℚ} (h : ∀ t ∈ l, 0 ≤ t) (z : ℕ) : 0 ≤ l.getD z 0 := by
  induction l generalizing z with
  | nil => simp
  | cons a t ih =>
      cases z with
      | zero => exact h a (by simp)
      | succ z => exact ih (fun t ht => h t (by simp [ht])) z

lemma first_argmax_lt_length : ∀ l : List ℚ, l ≠ [] → first_argmax l < l.length := by
  intro l
  induction l with
  | nil => intro h; exact absurd rfl h
  | cons p t ih =>
      intro _
      cases t with
      | nil => simp [first_argmax]
      | cons q rest =>
          have hr := ih (by simp)
          rw [first_argmax]
          by_cases hpr : p < (q :: rest).getD (first_argmax (q :: rest)) 0
          · rw [if_pos hpr]
            simpa using Nat.succ_lt_succ hr
          · rw [if_neg hpr]
            simp

lemma first_argmax_le : ∀ l : List ℚ, ∀ i < l.length, l.getD i 0 ≤ l.getD (first_argmax l) 0 := by
  intro l
  induction l with
  | nil => intro i hi; simp at hi
  | cons p t ih =>
      intro i hi
      cases t with
      | nil =>
          have : i = 0 := by simpa using Nat.lt_one_iff.mp (by simpa using hi)
          subst this
          simp [first_argmax]
      | cons q rest =>
          rw [first_argmax]
          by_cases hpr : p < (q :: rest).getD (first_argmax (q :: rest)) 0
          · rw [if_pos hpr]
            rw [List.getD_cons_succ]
            cases i with
            | zero => exact le_of_lt (by simpa using hpr)
            | succ i =>
                rw [List.getD_cons_succ]
                exact ih i (by simpa using hi)
          · rw [if_neg hpr, List.getD_cons_zero]
            cases i with
            | zero => simp
            | succ i =>
                have h1 : (q :: rest).getD i 0 ≤ (q :: rest).getD (first_argmax (q :: rest)) 0 :=
                  ih i (by simpa using hi)
                rw [List.getD_cons_succ]
                exact le_trans h1 (le_of_not_lt hpr)

lemma first_argmax_first : ∀ l : List ℚ, ∀ i < first_argmax l,
    l.getD i 0 < l.getD (first_argmax l) 0 := by
  intro l
  induction l with
  | nil => intro i hi; simp [first_argmax] at hi
  | cons p t ih =>
      intro i hi
      cases t with
      | nil => simp [first_argmax] at hi
      | cons q rest =>
          rw [first_argmax] at hi ⊢
          by_cases hpr : p < (q :: rest).getD (first_argmax (q :: rest)) 0
          · rw [if_pos hpr] at hi ⊢
            rw [List.getD_cons_succ]
            cases i with
            | zero => simpa using hpr
            | succ i =>
                rw [List.getD_cons_succ]
                exact ih i (Nat.succ_lt_succ_iff.mp hi)
          · rw [if_neg hpr] at hi
            exact absurd hi (Nat.not_lt_zero i)

lemma length_stage_posterior (ps : List ℚ) :
    (stage_posterior ps).length = ps.length + 1 := by
  rw [stage_posterior, List.length_map, length_stage_products]

lemma getD_map_range {α : Type} (f : ℕ → α) (n j : ℕ) (hj : j < n) (d : α) :
    ((List.range n).map f).getD j d = f j := by
  have hlen : j < ((List.range n).map f).length := by
    rw [List.length_map, List.length_range]
    exact hj
  rw [List.getD_eq_getElem _ d hlen]
  simp

lemma sum_range_map (f : ℕ → ℚ) (n : ℕ) :
    ((List.range n).map f).sum = ∑ i ∈ Finset.range n, f i := by
  induction n with
  | zero => simp
  | succ n ih => rw [List.range_succ, List.map_append, List.sum_append,
      Finset.sum_range_succ, ih]; simp

lemma count_positions (s : List ℕ) (e d : ℕ) :
    ∑ p ∈ Finset.range s.length, (if s.getD p d = e then (1 : ℚ) else 0) =
      (s.count e : ℚ) := by
  induction s with
  | nil => simp
  | cons a t ih =>
      have h1 : ∀ p, (a :: t).getD (p + 1) d = t.getD p d := fun p => rfl
      have h0 : (a :: t).getD 0 d = a := rfl
      rw [List.length_cons, Finset.sum_range_succ']
      simp only [h1, h0]
      rw [ih, List.count_cons]
      push_cast
      by_cases hae : a = e <;> simp [hae, add_comm]

lemma count_of_perm_range {n : ℕ} {s : List ℕ} (hs : s.Perm (List.range n))
    {e : ℕ} (he : e < n) : s.count e = 1 := by
  rw [hs.count_eq]
  exact List.count_eq_one_of_mem (List.nodup_range n) (List.mem_range.mpr he)

lemma position_sum {n : ℕ} {s : List ℕ} (hs : s.Perm (List.range n))
    {e : ℕ} (he : e < n) :
    ∑ p ∈ Finset.range n, (if s.getD p n = e then (1 : ℚ) else 0) = 1 := by
  have hlen : s.length = n := by rw [hs.length_eq, List.length_range]
  rw [← hlen, count_positions, count_of_perm_range hs he]
  norm_num

lemma pvd_row_count {n e : ℕ} (he : e < n) :
    ∀ samples : List (List ℕ), (∀ s ∈ samples, s.Perm (List.range n)) →
      ∑ p ∈ Finset.range n, ((samples.countP (fun s => s.getD p n = e)) : ℚ) =
        (samples.length : ℚ) := by
  intro samples
  induction samples with
  | nil => simp
  | cons s rest ih =>
      intro hall
      have hsum : ∀ p, (((s :: rest).countP (fun s => s.getD p n = e)) : ℚ) =
          ((rest.countP (fun s => s.getD p n = e)) : ℚ) +
            (if s.getD p n = e then (1 : ℚ) else 0) := by
        intro p
        rw [List.countP_cons]
        push_cast
        by_cases h : s.getD p n = e <;> simp [h]
      simp only [hsum]
      rw [Finset.sum_add_distrib, ih (fun t ht => hall t (by simp [ht])),
        position_sum (hall s (by simp)) he, List.length_cons]
      push_cast
      ring

lemma countP_replicate (p : List ℕ → Bool) (m : ℕ) (s : List ℕ) :
    (List.replicate m s).countP p = if p s then m else 0 := by
  induction m with
  | zero => simp
  | succ m ih =>
      rw [List.replicate_succ, List.countP_cons, ih]
      by_cases h : p s <;> simp [h]

lemma variance_nonneg (xs : List ℚ) : 0 ≤ variance xs := by
  rw [variance]
  refine div_nonneg (List.sum_nonneg ?_) (by positivity)
  intro q hq
  rcases List.mem_map.mp hq with ⟨x, _, rfl⟩
  positivity

lemma kde_density_nonneg {xs : List ℚ} {h : ℚ} (hh : 0 ≤ h) (x : ℚ) :
    0 ≤ kde_density xs h x := by
  rw [kde_density]
  refine div_nonneg (List.sum_nonneg ?_) (by positivity)
  intro q hq
  rcases List.mem_map.mp hq with ⟨xi, _, rfl⟩
  exact le_max_left 0 _

lemma fit_mixture_ok {values : List ℚ} {labels : List ℕ} {d : ℤ} {m : MixtureModel}
    (hfit : fit_mixture values labels d = Except.ok m) :
    0 ≤ m.weight ∧ m.weight ≤ 1 ∧ 0 ≤ m.bandwidth := by
  rw [fit_mixture] at hfit
  set oriented := values.map (fun v => (d : ℚ) * v) with ho
  set co := select labels oriented 0 with hco
  set pa := select labels oriented 1 with hpa
  split_ifs at hfit with h1 h2 h3
  · have hm := Except.ok.inj hfit
    push_neg at h1
    have hpa2 : min_labelled ≤ pa.length := h1.2
    have hpapos : (0 : ℚ) < (pa.length : ℚ) := by
      have : 0 < pa.length := lt_of_lt_of_le (by norm_num [min_labelled]) hpa2
      exact_mod_cast this
    have hcon : (0 : ℚ) ≤ (co.length : ℚ) := by positivity
    rw [← hm]
    refine ⟨?_, ?_, ?_⟩
    · exact div_nonneg (le_of_lt hpapos) (by positivity)
    · rw [div_le_one (by linarith)]
      linarith
    · exact variance_nonneg _

lemma select_map (f : ℚ → ℚ) :
    ∀ (labels : List ℕ) (values : List ℚ) (c : ℕ),
      select labels (values.map f) c = (select labels values c).map f := by
  intro labels
  induction labels with
  | nil => intro values c; simp [select]
  | cons l ls ih =>
      intro values c
      cases values with
      | nil => simp [select]
      | cons v vs =>
          simp only [select, List.map_cons, List.zip_cons_cons, List.filter_cons]
          by_cases h : (l == c) = true
          · rw [if_pos h, if_pos h]
            simp only [List.map_cons]
            exact congrArg (fun t => f v :: t) (ih vs c)
          · rw [if_neg h, if_neg h]
            exact ih vs c

lemma list_mean_map_mul (c : ℚ) (xs : List ℚ) :
    list_mean (xs.map (fun x => c * x)) = c * list_mean xs := by
  rw [list_mean, list_mean, sum_map_mul, List.length_map, mul_div_assoc]

lemma variance_map_mul (c : ℚ) (xs : List ℚ) :
    variance (xs.map (fun x => c * x)) = c ^ 2 * variance xs := by
  rw [variance, variance, list_mean_map_mul, List.length_map, List.map_map]
  have h1 : ((fun x => (x - c * list_mean xs) ^ 2) ∘ fun x => c * x) =
      ((fun t => c ^ 2 * t) ∘ fun x => (x - list_mean xs) ^ 2) := by
    funext x
    simp only [Function.comp]
    ring
  rw [h1, ← List.map_map, sum_map_mul, mul_div_assoc]

lemma fit_mixture_degenerate {values : List ℚ} {labels : List ℕ} (d : ℤ)
    (hco : min_labelled ≤ (select labels values 0).length)
    (hpa : min_labelled ≤ (select labels values 1).length)
    (hdeg : variance values = 0 ∨
      (d : ℚ) * (list_mean (select labels values 1) -
        list_mean (select labels values 0)) ≤ 0) :
    fit_mixture values labels d = Except.error FitError.degenerateDistribution := by
  have hcoL : (select labels (values.map (fun v => (d : ℚ) * v)) 0).length =
      (select labels values 0).length := by
    rw [select_map, List.length_map]
  have hpaL : (select labels (values.map (fun v => (d : ℚ) * v)) 1).length =
      (select labels values 1).length := by
    rw [select_map, List.length_map]
  have hcond : ¬((select labels (values.map (fun v => (d : ℚ) * v)) 0).length < min_labelled ∨
      (select labels (values.map (fun v => (d : ℚ) * v)) 1).length < min_labelled) := by
    rw [hcoL, hpaL]
    push_neg
    exact ⟨hco, hpa⟩
  by_cases hv : variance (values.map (fun v => (d : ℚ) * v)) = 0
  · rw [fit_mixture, if_neg hcond, if_pos hv]
  · rcases hdeg with hvar0 | hsep
    · exact absurd (by rw [variance_map_mul, hvar0, mul_zero]) hv
    · have hmean : list_mean (select labels (values.map (fun v => (d : ℚ) * v)) 1) ≤
          list_mean (select labels (values.map (fun v => (d : ℚ) * v)) 0) := by
        rw [select_map, select_map, list_mean_map_mul, list_mean_map_mul]
        have hsub : (d : ℚ) * list_mean (select labels values 1) -
            (d : ℚ) * list_mean (select labels values 0) ≤ 0 := by
          rw [← mul_sub]
          exact hsep
        linarith
      rw [fit_mixture, if_neg hcond, if_neg hv, if_pos hmean]

lemma getD_len_le {α : Type} : ∀ (l : List α) (n : ℕ) (d : α), l.length ≤ n →
    l.getD n d = d := by
  intro l
  induction l with
  | nil => intro n d _; simp
  | cons x t ih =>
      intro n d h
      cases n with
      | zero => simp at h
      | succ n => exact ih n d (by simpa using h)

lemma getD_set_self {α : Type} : ∀ (l : List α) (j : ℕ) (a d : α), j < l.length →
    (l.set j a).getD j d = a := by
  intro l
  induction l with
  | nil => intro j a d h; simp at h
  | cons x t ih =>
      intro j a d h
      cases j with
      | zero => rfl
      | succ j => exact ih j a d (by simpa using h)

lemma getD_set_ne {α : Type} : ∀ (l : List α) (i j : ℕ) (a d : α), i ≠ j →
    (l.set i a).getD j d = l.getD j d := by
  intro l
  induction l with
  | nil => intro i j a d _; rfl
  | cons x t ih =>
      intro i j a d hij
      cases i with
      | zero =>
          cases j with
          | zero => exact absurd rfl hij
          | succ j => rfl
      | succ i =>
          cases j with
          | zero => rfl
          | succ j => exact ih i j a d (fun h => hij (by rw [h]))

lemma map_neg_orient (values : List ℚ) (d : ℤ) :
    (values.map (fun v => -v)).map (fun v => ((-d : ℤ) : ℚ) * v) =
      values.map (fun v => ((d : ℤ) : ℚ) * v) := by
  rw [List.map_map]
  refine List.map_congr_left fun v _ => ?_
  simp only [Function.comp]
  push_cast
  ring

lemma event_probability_direction (mc mp : List ℚ) (mb mw : ℚ) (d1 d2 : ℤ) (x : ℚ) :
    event_probability ⟨mc, mp, mb, mw, d1⟩ x =
      event_probability ⟨mc, mp, mb, mw, d2⟩ x := rfl

lemma except_map_error {ε α β : Type} (f : α → β) (e : ε) :
    Except.map f (Except.error e : Except ε α) = Except.error e := rfl

lemma except_map_ok {ε α β : Type} (f : α → β) (a : α) :
    Except.map f (Except.ok a : Except ε α) = Except.ok (f a) := rfl

lemma entry_flip (values : List ℚ) (labels : List ℕ) (d : ℤ) (x : ℚ) :
    Except.map (fun m => mixture_event_probability m (-x))
        (fit_mixture (values.map (fun v => -v)) labels (-d)) =
      Except.map (fun m => mixture_event_probability m x)
        (fit_mixture values labels d) := by
  rw [fit_mixture, fit_mixture, map_neg_orient]
  split_ifs
  · rw [except_map_error, except_map_error]
  · rw [except_map_error, except_map_error]
  · rw [except_map_error, except_map_error]
  · rw [except_map_ok, except_map_ok]
    have harg : ((-d : ℤ) : ℚ) * (-x) = ((d : ℤ) : ℚ) * x := by
      push_cast
      ring
    simp only [mixture_event_probability]
    rw [harg]
    exact congrArg Except.ok (event_probability_direction _ _ _ _ (-d) d _)

/-! ## Claim theorems -/

/-- Claim C1: for every candidate Ordering and every subject, the likelihood
the sampler assigns to the subject's event-probability row equals
`(1/(N+1)) · Σ_{z=0}^{N} Π_{k≤z} p(event_k) · Π_{k>z} (1 − p(event_k))` with
positions taken in the order given by the Ordering, and the log of the
ordering's data likelihood is the sum over subjects of the log of this
quantity. -/
theorem C1_likelihood_marginalisation (n : ℕ) (ord : List ℕ) (mat : List (List ℚ))
    (hord : ord.Perm (List.range n))
    (hmat : ∀ row ∈ mat, row.length = n ∧ ∀ p ∈ row, 0 < p ∧ p < 1) :
    (∀ row ∈ mat,
        subject_likelihood (reorder ord row) =
          (1 / ((n : ℚ) + 1)) *
            ∑ z ∈ Finset.range (n + 1),
              ((reorder ord row).take z).prod *
                (((reorder ord row).drop z).map (fun q => 1 - q)).prod) ∧
    Real.log ((ordering_likelihood mat ord : ℚ) : ℝ) =
      (mat.map (fun row =>
        Real.log ((subject_likelihood (reorder ord row) : ℚ) : ℝ))).sum := by
  constructor
  · intro row hrow
    have hlen : (reorder ord row).length = n := length_reorder row hord
    rw [subject_likelihood, stage_products_sum, hlen, one_div, inv_mul_eq_div]
  · have hpos : ∀ q ∈ mat.map (fun row => subject_likelihood (reorder ord row)), 0 < q := by
      intro q hq
      rcases List.mem_map.mp hq with ⟨row, hrow, rfl⟩
      refine subject_likelihood_pos fun p hp => ?_
      exact (hmat row hrow).2 p (mem_reorder hord (hmat row hrow).1 p hp)
    rw [ordering_likelihood, log_list_prod _ hpos, List.map_map]
    rfl

/-- Claim C1 witness: the subject-likelihood identity at a concrete input. -/
theorem C1_witness :
    subject_likelihood (reorder [1, 0] [1/2, 1/3]) =
      (1 / ((2 : ℚ) + 1)) *
        ∑ z ∈ Finset.range (2 + 1),
          ((reorder [1, 0] [1/2, 1/3]).take z).prod *
            (((reorder [1, 0] [1/2, 1/3]).drop z).map (fun q => 1 - q)).prod :=
  (C1_likelihood_marginalisation 2 [1, 0] [[1/2, 1/3]] (by decide)
    (by
      intro row hrow
      simp only [List.mem_singleton] at hrow
      subst hrow
      refine ⟨rfl, ?_⟩
      intro p hp
      rcases List.mem_cons.mp hp with rfl | hp
      · norm_num
      · rcases List.mem_singleton.mp hp with rfl
        norm_num)).1
    [1/2, 1/3] (by simp)

/-- Claim C2: for every subject's event-probability row and every fixed
Ordering over `n` events, the staging operation's stage posterior at stage
`z` is the product `Π_{k≤z} p(event_k) · Π_{k>z} (1 − p(event_k))`
normalised by the total, the posterior sums to 1, `ml_stage` is the arg max
with ties broken by the lowest stage index and lies in `{0,…,n}`, and
`expected_stage` is `Σ_z z·posterior[z]` and lies in `[0,n]`. -/
theorem C2_staging (n : ℕ) (ord : List ℕ) (row : List ℚ)
    (hord : ord.Perm (List.range n)) (hrow : row.length = n)
    (hp : ∀ p ∈ row, 0 < p ∧ p < 1) :
    (∀ z ≤ n, (stage_posterior (reorder ord row)).getD z 0 =
        ((reorder ord row).take z).prod *
          (((reorder ord row).drop z).map (fun q => 1 - q)).prod /
          (stage_products (reorder ord row)).sum) ∧
    (stage_posterior (reorder ord row)).sum = 1 ∧
    ml_stage (reorder ord row) ≤ n ∧
    (∀ z ≤ n, (stage_posterior (reorder ord row)).getD z 0 ≤
        (stage_posterior (reorder ord row)).getD (ml_stage (reorder ord row)) 0) ∧
    (∀ z < ml_stage (reorder ord row),
        (stage_posterior (reorder ord row)).getD z 0 <
          (stage_posterior (reorder ord row)).getD (ml_stage (reorder ord row)) 0) ∧
    0 ≤ expected_stage (reorder ord row) ∧ expected_stage (reorder ord row) ≤ n := by
  set ps := reorder ord row with hps
  have hmem : ∀ p ∈ ps, 0 < p ∧ p < 1 := fun p hp' => hp p (mem_reorder hord hrow p hp')
  have hlen : ps.length = n := length_reorder row hord
  have hT : 0 < (stage_products ps).sum := stage_products_sum_pos hmem
  have hpost_len : (stage_posterior ps).length = n + 1 := by
    rw [length_stage_posterior, hlen]
  have hpost_nonneg : ∀ t ∈ stage_posterior ps, 0 ≤ t := by
    intro t ht
    rcases List.mem_map.mp ht with ⟨t', ht', rfl⟩
    have h0 : 0 ≤ t' :=
      stage_products_nonneg
        (fun p hp' => ⟨le_of_lt (hmem p hp').1, le_of_lt (hmem p hp').2⟩) t' ht'
    exact div_nonneg h0 (le_of_lt hT)
  have hgetD : ∀ z, (stage_posterior ps).getD z 0 =
      (stage_products ps).getD z 0 / (stage_products ps).sum :=
    fun z => getD_map_div _ _ z
  refine ⟨?_, ?_, ?_, ?_, ?_, ?_, ?_⟩
  · intro z hz
    rw [hgetD z, stage_products_getD ps z (by rw [hlen]; exact hz)]
  · rw [stage_posterior, sum_map_div, div_self (ne_of_gt hT)]
  · have hne : stage_posterior ps ≠ [] := by
      intro h
      rw [h] at hpost_len
      simp at hpost_len
    have := first_argmax_lt_length (stage_posterior ps) hne
    rw [hpost_len] at this
    exact Nat.lt_succ_iff.mp this
  · intro z hz
    exact first_argmax_le (stage_posterior ps) z (by rw [hpost_len]; exact Nat.lt_succ_of_le hz)
  · intro z hz
    exact first_argmax_first (stage_posterior ps) z hz
  · refine Finset.sum_nonneg fun z _ => ?_
    exact mul_nonneg (by positivity) (getD_nonneg hpost_nonneg z)
  · rw [expected_stage]
    have hsum1 : ∑ z ∈ Finset.range (stage_posterior ps).length,
        (stage_posterior ps).getD z 0 = 1 := by
      rw [sum_getD, stage_posterior, sum_map_div, div_self (ne_of_gt hT)]
    calc
      ∑ z ∈ Finset.range (stage_posterior ps).length,
          (z : ℚ) * (stage_posterior ps).getD z 0
          ≤ ∑ z ∈ Finset.range (stage_posterior ps).length,
              (n : ℚ) * (stage_posterior ps).getD z 0 := by
            refine Finset.sum_le_sum fun z hz => ?_
            have hzn : z ≤ n := by
              have := Finset.mem_range.mp hz
              rw [hpost_len] at this
              exact Nat.lt_succ_iff.mp this
            exact mul_le_mul_of_nonneg_right (by exact_mod_cast hzn)
              (getD_nonneg hpost_nonneg z)
      _ = (n : ℚ) := by rw [← Finset.mul_sum, hsum1, mul_one]

/-- Claim C2 witness: the stage posterior at a concrete subject row and
Ordering sums to 1. -/
theorem C2_witness : (stage_posterior (reorder [1, 0] [1/2, 1/3])).sum = 1 :=
  (C2_staging 2 [1, 0] [1/2, 1/3] (by decide) rfl
    (by
      intro p hp
      rcases List.mem_cons.mp hp with rfl | hp
      · norm_num
      · rcases List.mem_singleton.mp hp with rfl
        norm_num)).2.1

/-- Claim C3 counterexample: at a concrete reachable sampler state the
proposed Ordering has log-likelihood equal to (hence `≥`) the current one,
yet the step retains the currently-held Ordering instead of accepting the
proposal — the claim's `accept if ≥` and its own tie rule cannot both hold,
and the implemented tie policy retains the current Ordering. -/
theorem C3_counterexample :
    ¬ (tie_state.curLik ≤ ordering_likelihood tie_mat (mc_proposal tie_state) →
        (mcmcStep tie_mat tie_state).1.cur = mc_proposal tie_state) := by
  have h1 : mc_proposal tie_state = [1, 0] := by decide
  have h2 : ordering_likelihood tie_mat (mc_proposal tie_state) = 1/4 := by
    rw [h1]
    simp [ordering_likelihood, subject_likelihood, reorder, stage_products, tie_mat]
    norm_num
  intro h
  have hc : (mcmcStep tie_mat tie_state).1.cur = mc_proposal tie_state := by
    refine h ?_
    rw [h2]
    norm_num [tie_state]
  have hcur : (mcmcStep tie_mat tie_state).1.cur = [0, 1] := by
    simp only [mcmcStep]
    rw [h2]
    norm_num [tie_state]
  rw [hcur, h1] at hc
  exact absurd hc (by decide)

/-- Claim C3 (amended): at every MCMC step the proposed Ordering is accepted
if its likelihood is strictly greater than the current one; an exact
likelihood tie retains the currently-held Ordering; otherwise the proposal
is accepted exactly when the uniform draw `u` satisfies `u·L < L'`, i.e.
with probability `L'/L = exp(Δ log-likelihood)`; on rejection the current
Ordering (with its likelihood) is retained as the next sample. -/
theorem C3_metropolis_step (mat : List (List ℚ)) (st : MCState) :
    (mcmcStep mat st).1.cur =
      (if st.curLik < ordering_likelihood mat (mc_proposal st) then mc_proposal st
       else if ordering_likelihood mat (mc_proposal st) = st.curLik then st.cur
       else if mc_unif st * st.curLik < ordering_likelihood mat (mc_proposal st) then
         mc_proposal st
       else st.cur) ∧
    (mcmcStep mat st).2 = ((mcmcStep mat st).1.cur, (mcmcStep mat st).1.curLik) ∧
    (0 < st.curLik →
      ((mc_unif st * st.curLik < ordering_likelihood mat (mc_proposal st)) ↔
        mc_unif st < ordering_likelihood mat (mc_proposal st) / st.curLik)) := by
  refine ⟨?_, ?_, ?_⟩
  · simp only [mcmcStep]
    split_ifs <;> rfl
  · simp only [mcmcStep]
  · intro hL
    rw [lt_div_iff₀ hL]

/-- Claim C3 witness: the amended step contract at the concrete tie input —
the emitted sample is the retained state's Ordering and likelihood. -/
theorem C3_witness :
    (mcmcStep tie_mat tie_state).2 =
      ((mcmcStep tie_mat tie_state).1.cur, (mcmcStep tie_mat tie_state).1.curLik) :=
  (C3_metropolis_step tie_mat tie_state).2.1

/-- Claim C4: for every non-empty collection of sampled Orderings over `n`
events, `extract_pvd` is an `n × n` matrix whose cell `(e,p)` is the
empirical frequency with which event `e` appears at position `p`, every row
sums (exactly) to 1, and when all samples are identical the matrix is
exactly a permutation matrix. -/
theorem C4_pvd (n : ℕ) (samples : List (List ℕ))
    (hne : samples ≠ [])
    (hall : ∀ s ∈ samples, s.Perm (List.range n)) :
    ((extract_pvd n samples).length = n ∧
      ∀ r ∈ extract_pvd n samples, r.length = n) ∧
    (∀ e < n, ∀ p < n,
        ((extract_pvd n samples).getD e []).getD p 0 =
          (((samples.filter (fun s => s.getD p n = e)).length : ℕ) : ℚ) /
            (samples.length : ℚ)) ∧
    (∀ e < n, ((extract_pvd n samples).getD e []).sum = 1) ∧
    (∀ s m, samples = List.replicate m s →
        ∀ e < n, ∀ p < n,
          ((extract_pvd n samples).getD e []).getD p 0 =
            if s.getD p n = e then 1 else 0) := by
  have hlen0 : samples.length ≠ 0 := fun h => hne (List.length_eq_zero.mp h)
  have hlenq : (samples.length : ℚ) ≠ 0 := by exact_mod_cast hlen0
  have hcell : ∀ e < n, ∀ p < n,
      ((extract_pvd n samples).getD e []).getD p 0 =
        ((samples.countP (fun s => s.getD p n = e)) : ℚ) / (samples.length : ℚ) := by
    intro e he p hp
    rw [extract_pvd, getD_map_range _ n e he, getD_map_range _ n p hp]
  refine ⟨⟨?_, ?_⟩, ?_, ?_, ?_⟩
  · rw [extract_pvd, List.length_map, List.length_range]
  · intro r hr
    rcases List.mem_map.mp hr with ⟨e, _, rfl⟩
    rw [List.length_map, List.length_range]
  · intro e he p hp
    rw [hcell e he p hp, List.countP_eq_length_filter]
  · intro e he
    have hrow : (extract_pvd n samples).getD e [] =
        (List.range n).map (fun p =>
          ((samples.countP (fun s => s.getD p n = e)) : ℚ) / (samples.length : ℚ)) := by
      rw [extract_pvd, getD_map_range _ n e he]
    rw [hrow, sum_range_map]
    have : ∀ p ∈ Finset.range n,
        ((samples.countP (fun s => s.getD p n = e)) : ℚ) / (samples.length : ℚ) =
          ((samples.countP (fun s => s.getD p n = e)) : ℚ) * (samples.length : ℚ)⁻¹ := by
      intro p _
      rw [div_eq_mul_inv]
    rw [Finset.sum_congr rfl this, ← Finset.sum_mul, pvd_row_count he samples hall,
      mul_inv_cancel₀ hlenq]
  · intro s m hrep e he p hp
    rw [hcell e he p hp, hrep, countP_replicate, List.length_replicate]
    have hm : m ≠ 0 := by
      intro h
      rw [hrep, h] at hne
      simp at hne
    have hmq : (m : ℚ) ≠ 0 := by exact_mod_cast hm
    simp only [decide_eq_true_eq]
    push_cast
    split_ifs with hc
    · exact div_self hmq
    · exact zero_div _

/-- Claim C4 witness: with two identical sampled Orderings over two events,
row 0 of the positional-variance matrix sums to 1. -/
theorem C4_witness : ((extract_pvd 2 [[1, 0], [1, 0]]).getD 0 []).sum = 1 :=
  (C4_pvd 2 [[1, 0], [1, 0]] (by decide) (by decide)).2.2.1 0 (by decide)

/-- Claim C5: for every fitted MixtureModel and every input `x`, the event
probability equals the event-component density times the mixing weight
divided by the total mixture density at `x`, always lies in `[0,1]`, and
when the total mixture density vanishes the result is the defined limiting
value 1/2. -/
theorem C5_event_probability (values : List ℚ) (labels : List ℕ) (d : ℤ)
    (m : MixtureModel) (x : ℚ)
    (hfit : fit_mixture values labels d = Except.ok m) :
    (0 ≤ event_probability m x ∧ event_probability m x ≤ 1) ∧
    (mixture_total_density m x = 0 → event_probability m x = 1 / 2) ∧
    (mixture_total_density m x ≠ 0 →
        event_probability m x =
          m.weight * kde_density m.patients m.bandwidth x / mixture_total_density m x) := by
  obtain ⟨hw0, hw1, hb⟩ := fit_mixture_ok hfit
  have hfe : 0 ≤ m.weight * kde_density m.patients m.bandwidth x :=
    mul_nonneg hw0 (kde_density_nonneg hb x)
  have hfn : 0 ≤ (1 - m.weight) * kde_density m.controls m.bandwidth x :=
    mul_nonneg (by linarith) (kde_density_nonneg hb x)
  have htot : 0 ≤ mixture_total_density m x := by
    rw [mixture_total_density]
    linarith
  refine ⟨?_, ?_, ?_⟩
  · rw [event_probability]
    split_ifs with h0
    · norm_num
    · have hpos : 0 < mixture_total_density m x := lt_of_le_of_ne htot (Ne.symm h0)
      constructor
      · exact div_nonneg hfe (le_of_lt hpos)
      · rw [div_le_one hpos, mixture_total_density]
        linarith
  · intro h0
    rw [event_probability, if_pos h0]
  · intro h0
    rw [event_probability, if_neg h0]

/-- Claim C5 witness: bounds of the event probability at a concretely fitted
mixture model and input. -/
theorem C5_witness :
    0 ≤ event_probability ⟨[0, 1/10], [1, 9/10], 41/200, 1/2, 1⟩ 17 ∧
      event_probability ⟨[0, 1/10], [1, 9/10], 41/200, 1/2, 1⟩ 17 ≤ 1 :=
  (C5_event_probability [0, 1/10, 1, 9/10] [0, 0, 1, 1] 1
    ⟨[0, 1/10], [1, 9/10], 41/200, 1/2, 1⟩ 17
    (by
      simp [fit_mixture, select, variance, list_mean, min_labelled]
      norm_num)).1

/-- Claim C6: a degenerate biomarker column — zero variance, or more
generally a declared direction inconsistent with the observed
patient/control separation — makes the fitter return
`DegenerateDistributionError` instead of a MixtureModel (given enough
labelled observations, which are checked first), and every biomarker's fit
depends only on that biomarker's own column, so the failure is local and
cannot abort the fitting of the others. -/
theorem C6_degenerate (X : List (List ℚ)) (y : List ℕ) (dirs : List ℤ) (j : ℕ)
    (hj : j < dirs.length)
    (hco : min_labelled ≤ (select y (column X j) 0).length)
    (hpa : min_labelled ≤ (select y (column X j) 1).length)
    (hdeg : variance (column X j) = 0 ∨
      (dirs.getD j 1 : ℚ) * (list_mean (select y (column X j) 1) -
        list_mean (select y (column X j) 0)) ≤ 0) :
    (fit_all_kde_models X y dirs).getD j (Except.error FitError.insufficientData) =
      Except.error FitError.degenerateDistribution ∧
    (∀ X' : List (List ℚ), ∀ j', column X' j' = column X j' →
        (fit_all_kde_models X' y dirs).getD j' (Except.error FitError.insufficientData) =
          (fit_all_kde_models X y dirs).getD j' (Except.error FitError.insufficientData)) := by
  constructor
  · rw [fit_all_kde_models, getD_map_range _ _ j hj]
    exact fit_mixture_degenerate (dirs.getD j 1) hco hpa hdeg
  · intro X' j' hcol
    by_cases hj' : j' < dirs.length
    · rw [fit_all_kde_models, fit_all_kde_models, getD_map_range _ _ j' hj',
        getD_map_range _ _ j' hj', hcol]
    · have hle : dirs.length ≤ j' := le_of_not_lt hj'
      rw [fit_all_kde_models, fit_all_kde_models,
        getD_len_le _ _ _ (by rw [List.length_map, List.length_range]; exact hle),
        getD_len_le _ _ _ (by rw [List.length_map, List.length_range]; exact hle)]

/-- Claim C6 witness: a concrete zero-variance biomarker fails with
`degenerateDistribution` in the per-biomarker result list, and so does a
concrete biomarker whose declared direction (decreasing) is inconsistent
with the observed separation (patients higher than controls). -/
theorem C6_witness :
    (fit_all_kde_models [[5, 0], [5, 1/10], [5, 1], [5, 9/10]] [0, 0, 1, 1]
        [1, 1]).getD 0 (Except.error FitError.insufficientData) =
      Except.error FitError.degenerateDistribution ∧
    (fit_all_kde_models [[0], [1/10], [1], [9/10]] [0, 0, 1, 1]
        [-1]).getD 0 (Except.error FitError.insufficientData) =
      Except.error FitError.degenerateDistribution :=
  ⟨(C6_degenerate [[5, 0], [5, 1/10], [5, 1], [5, 9/10]] [0, 0, 1, 1] [1, 1] 0
      (by norm_num)
      (by norm_num [select, column, min_labelled])
      (by norm_num [select, column, min_labelled])
      (Or.inl (by norm_num [variance, column, list_mean]))).1,
   (C6_degenerate [[0], [1/10], [1], [9/10]] [0, 0, 1, 1] [-1] 0
      (by norm_num)
      (by norm_num [select, column, min_labelled])
      (by norm_num [select, column, min_labelled])
      (Or.inr (by norm_num [select, column, list_mean]))).1⟩

/-- Claim C7: simultaneously negating biomarker `j`'s direction and all of
its measured values leaves the fitted EventProbabilityMatrix unchanged. -/
theorem C7_direction_flip (X : List (List ℚ)) (y : List ℕ) (dirs : List ℤ) (j : ℕ)
    (hrows : ∀ row ∈ X, dirs.length ≤ row.length) :
    event_probability_matrix (negate_column X j) y (flip_direction dirs j) =
      event_probability_matrix X y dirs := by
  rw [event_probability_matrix, event_probability_matrix]
  have hlen : (flip_direction dirs j).length = dirs.length := by
    rw [flip_direction, List.length_set]
  rw [hlen, negate_column, List.map_map]
  refine List.map_congr_left fun row hrow => ?_
  simp only [Function.comp]
  refine List.map_congr_left fun j' hj' => ?_
  have hj'n : j' < dirs.length := List.mem_range.mp hj'
  by_cases hjj : j' = j
  · subst hjj
    have hjr : j' < row.length := lt_of_lt_of_le hj'n (hrows row hrow)
    have hd' : (flip_direction dirs j').getD j' 1 = -(dirs.getD j' 1) :=
      getD_set_self dirs j' _ 1 hj'n
    have hcolj : column (X.map (fun r => r.set j' (-(r.getD j' 0)))) j' =
        (column X j').map (fun v => -v) := by
      rw [column, column, List.map_map, List.map_map]
      refine List.map_congr_left fun r hr => ?_
      simp only [Function.comp]
      exact getD_set_self r j' _ 0 (lt_of_lt_of_le hj'n (hrows r hr))
    have hrowj : (row.set j' (-(row.getD j' 0))).getD j' 0 = -(row.getD j' 0) :=
      getD_set_self row j' _ 0 hjr
    rw [hd', hcolj, hrowj]
    exact entry_flip (column X j') y (dirs.getD j' 1) (row.getD j' 0)
  · have hd' : (flip_direction dirs j).getD j' 1 = dirs.getD j' 1 :=
      getD_set_ne dirs j j' _ 1 (fun h => hjj h.symm)
    have hcol : column (X.map (fun r => r.set j (-(r.getD j 0)))) j' = column X j' := by
      rw [column, column, List.map_map]
      refine List.map_congr_left fun r _ => ?_
      simp only [Function.comp]
      exact getD_set_ne r j j' _ 0 (fun h => hjj h.symm)
    have hrowg : (row.set j (-(row.getD j 0))).getD j' 0 = row.getD j' 0 :=
      getD_set_ne row j j' _ 0 (fun h => hjj h.symm)
    rw [hd', hcol, hrowg]

/-- Claim C7 witness: entrywise equality of the EventProbabilityMatrix under
a concrete direction-and-column flip. -/
theorem C7_witness :
    event_probability_matrix
        (negate_column [[0], [1/10], [1], [9/10]] 0) [0, 0, 1, 1]
        (flip_direction [1] 0) =
      event_probability_matrix [[0], [1/10], [1], [9/10]] [0, 0, 1, 1] [1] :=
  C7_direction_flip [[0], [1/10], [1], [9/10]] [0, 0, 1, 1] [1] 0
    (by
      intro row hrow
      rcases List.mem_cons.mp hrow with rfl | hrow
      · norm_num
      · rcases List.mem_cons.mp hrow with rfl | hrow
        · norm_num
        · rcases List.mem_cons.mp hrow with rfl | hrow
          · norm_num
          · rcases List.mem_singleton.mp hrow with rfl
            norm_num)

/-- Claim C8: running the SequenceSampler twice with identical seeds and
identical inputs (event-probability data and mixtures) produces identical
sequences of Ordering samples with identical likelihoods — the sampler owns
its seeded RNG state, so the run is a pure function of seed and inputs. -/
theorem C8_determinism (X X' : List (List ℚ)) (ms ms' : List MixtureModel)
    (seed seed' iters burn : ℕ)
    (hX : X = X') (hm : ms = ms') (hs : seed = seed') :
    mcmc X ms seed iters burn = mcmc X' ms' seed' iters burn ∧
    mcmc_retained X ms seed iters burn = mcmc_retained X' ms' seed' iters burn := by
  subst hX
  subst hm
  subst hs
  exact ⟨rfl, rfl⟩

/-- Claim C8 witness: two runs from equal seed and inputs coincide at a
concrete instantiation. -/
theorem C8_witness :
    mcmc [[1/2]] [⟨[0], [1], 1, 1/2, 1⟩] 0 2 1 =
      mcmc [[1/2]] [⟨[0], [1], 1, 1/2, 1⟩] 0 2 1 :=
  (C8_determinism [[1/2]] [[1/2]] [⟨[0], [1], 1, 1/2, 1⟩] [⟨[0], [1], 1, 1/2, 1⟩]
    0 0 2 1 rfl rfl rfl).1

/-- Claim C9: the sample stream returned by the `mcmc` operation is sorted
by descending likelihood, is a permutation of the retained (post-burn-in)
chain samples, and its head carries a likelihood at least that of every
retained sample — so index 0 holds the maximum-likelihood Ordering. -/
theorem C9_sorted_head_max (X : List (List ℚ)) (ms : List MixtureModel)
    (seed iters burn : ℕ) :
    (mcmc X ms seed iters burn).Sorted (fun a b => b.2 ≤ a.2) ∧
    (mcmc X ms seed iters burn).Perm (mcmc_retained X ms seed iters burn) ∧
    ∀ s ∈ mcmc_retained X ms seed iters burn,
      s.2 ≤ ((mcmc X ms seed iters burn).headD ([], 0)).2 := by
  haveI hT : IsTotal (List ℕ × ℚ) (fun a b => b.2 ≤ a.2) := ⟨fun a b => le_total b.2 a.2⟩
  haveI hTr : IsTrans (List ℕ × ℚ) (fun a b => b.2 ≤ a.2) :=
    ⟨fun a b c hab hbc => le_trans hbc hab⟩
  have hsorted : (mcmc X ms seed iters burn).Sorted (fun a b => b.2 ≤ a.2) := by
    rw [mcmc]
    exact List.sorted_insertionSort _ _
  refine ⟨hsorted, ?_, ?_⟩
  · rw [mcmc]
    exact List.perm_insertionSort _ _
  · intro s hs
    have hmem : s ∈ mcmc X ms seed iters burn := by
      rw [mcmc]
      exact (List.perm_insertionSort _ _).mem_iff.mpr hs
    cases hmc : mcmc X ms seed iters burn with
    | nil =>
        rw [hmc] at hmem
        simp at hmem
    | cons hd tl =>
        rw [hmc] at hmem hsorted
        rcases List.mem_cons.mp hmem with rfl | hmem'
        · simp [List.headD]
        · have hle := (List.pairwise_cons.mp hsorted).1 s hmem'
          simpa [List.headD] using hle

/-- Claim C9 witness: sortedness of a concrete sampling run's output. -/
theorem C9_witness :
    (mcmc [[1/2]] [⟨[0], [1], 1, 1/2, 1⟩] 0 2 1).Sorted (fun a b => b.2 ≤ a.2) :=
  (C9_sorted_head_max [[1/2]] [⟨[0], [1], 1, 1/2, 1⟩] 0 2 1).1

/-- Claim C10: when the results dictionary already contains the key
`mixtures_rcv`, re-running the cross-validation cell leaves all four stored
cross-validation artifacts exactly as they were and does not invoke
`ebm_2_repeatedcv` — the result does not depend on the cross-validation
function at all. -/
theorem C10_cv_cache {μ σ ρ ε : Type} (run run' : Unit → μ × σ × ρ × ε)
    (r : EBMResults μ σ ρ ε) (h : r.mixtures_rcv.isSome = true) :
    cv_cell run r = r ∧ cv_cell run r = cv_cell run' r := by
  rcases r with ⟨mx, sm, sq, er⟩
  cases mx with
  | none => simp at h
  | some v => exact ⟨rfl, rfl⟩

/-- Claim C10 witness: the caching cell is the identity on a concrete
already-populated results record. -/
theorem C10_witness :
    cv_cell (fun _ => ((0 : ℕ), (0 : ℕ), (0 : ℕ), (0 : ℕ)))
        (⟨some 1, some 2, some 3, some 4⟩ : EBMResults ℕ ℕ ℕ ℕ) =
      (⟨some 1, some 2, some 3, some 4⟩ : EBMResults ℕ ℕ ℕ ℕ) :=
  (C10_cv_cache (fun _ => (0, 0, 0, 0)) (fun _ => (5, 5, 5, 5))
    ⟨some 1, some 2, some 3, some 4⟩ rfl).1

end EBM
